import Mathlib

/-!
Verification of the CLI base layer of graphcore (src/clibase.h): token
splitting, unsigned-integer validation, record reading, dataset reading,
command lookup and the syntax-error status protocol.

Modelling conventions: C strings become lists of characters; the input
stream becomes a finite list of read events (lines successfully read by
fgets, or transient non-EOF read failures) followed by a steady tail
behaviour (end of stream, or a persistent non-EOF failure); unsigned
arithmetic becomes Nat with explicit reduction mod 2 ^ 32 where the code
converts unsigned long to uint32_t.
-/

namespace Clibase

/-- Default delimiter set of Cli::splitString: space, newline, tab, comma. -/
def defaultDelim : List Char := [' ', '\n', '\t', ',']

/-- Accumulator pass of splitString: skip runs of delimiters, collect
maximal runs of non-delimiter characters as tokens. -/
def splitStringAux (delim : List Char) : List Char → List Char → List (List Char)
  | [], acc => if acc.isEmpty then [] else [acc.reverse]
  | c :: rest, acc =>
    if c ∈ delim then
      if acc.isEmpty then splitStringAux delim rest []
      else acc.reverse :: splitStringAux delim rest []
    else splitStringAux delim rest (c :: acc)

/-- Model of Cli::splitString: split a string into words using the given
delimiter characters. -/
def splitString (s : List Char) (delim : List Char := defaultDelim) : List (List Char) :=
  splitStringAux delim s []

/-- Model of the chomp step of Cli::readUintRecord: strip one trailing
newline character if present. -/
def chomp (s : List Char) : List Char :=
  if s.getLast? = some '\n' then s.dropLast else s

/-- Model of Cli::isValidUint: the string is nonempty and every character
is a decimal digit. -/
def isValidUint (s : List Char) : Bool :=
  !s.isEmpty && s.all Char.isDigit

/-- Largest value representable in unsigned long on the LP64 targets the
code runs on: 2 ^ 64 - 1; strtoul clamps to it on overflow. -/
def ULONG_MAX : Nat := 2 ^ 64 - 1

/-- C isspace in the default locale: space, tab, newline, vertical tab,
form feed, carriage return. -/
def cIsSpace (c : Char) : Bool :=
  c == ' ' || c == '\t' || c == '\n' || c == '\x0b' || c == '\x0c' || c == '\r'

/-- Numeric value of a decimal digit character. -/
def digitVal (c : Char) : Nat := c.toNat - '0'.toNat

/-- C octal digit test. -/
def isOctDigit (c : Char) : Bool := '0' ≤ c && c ≤ '7'

/-- C hexadecimal digit test. -/
def isHexDigitC (c : Char) : Bool :=
  c.isDigit || ('a' ≤ c && c ≤ 'f') || ('A' ≤ c && c ≤ 'F')

/-- Numeric value of a hexadecimal digit character. -/
def hexDigitVal (c : Char) : Nat :=
  if c.isDigit then digitVal c
  else if 'a' ≤ c && c ≤ 'f' then c.toNat - 'a'.toNat + 10
  else c.toNat - 'A'.toNat + 10

/-- Exact value of the maximal leading run of digits of the given base,
accumulated most significant digit first on top of acc; parsing stops at
the first character that is not a digit of the base. -/
def takeDigitsVal (base : Nat) (isD : Char → Bool) (val : Char → Nat) :
    List Char → Nat → Nat
  | [], acc => acc
  | c :: rest, acc =>
    if isD c then takeDigitsVal base isD val rest (acc * base + val c) else acc

/-- Magnitude read by strtoul with base argument 0, after the sign: a
leading 0x or 0X selects base 16, a bare leading 0 selects base 8, any
other start selects base 10; the value is exact (not yet clamped). -/
def strtoulMag : List Char → Nat
  | [] => 0
  | c :: rest =>
    if c = '0' then
      match rest with
      | [] => 0
      | x :: rest2 =>
        if x = 'x' ∨ x = 'X' then takeDigitsVal 16 isHexDigitC hexDigitVal rest2 0
        else takeDigitsVal 8 isOctDigit digitVal rest 0
    else takeDigitsVal 10 Char.isDigit digitVal (c :: rest) 0

/-- Sign handling of strtoul: an optional single plus or minus sign; the
magnitude is clamped to ULONG_MAX on overflow, and a minus sign negates
the value in unsigned long arithmetic. -/
def strtoulSigned : List Char → Nat
  | [] => 0
  | c :: rest =>
    if c = '-' then
      if ULONG_MAX < strtoulMag rest then ULONG_MAX
      else (2 ^ 64 - strtoulMag rest) % 2 ^ 64
    else if c = '+' then min (strtoulMag rest) ULONG_MAX
    else min (strtoulMag (c :: rest)) ULONG_MAX

/-- Model of strtoul(s, 0, 0): skip leading space characters, then parse
an optionally signed integer whose base is inferred from the text. -/
def strtoul0 (s : List Char) : Nat :=
  strtoulSigned (s.dropWhile cIsSpace)

/-- Model of Cli::parseUint: strtoul with base 0, implicitly converted to
uint32_t on return. -/
def parseUint (s : List Char) : Nat := strtoul0 s % 2 ^ 32

/-- Model of Cli::isValidNodeID: a valid unsigned integer whose parsed
value is nonzero. -/
def isValidNodeID (s : List Char) : Bool :=
  isValidUint s && decide (parseUint s ≠ 0)

/-- Result of one fgets call on the input stream. -/
inductive FgetsRes where
  | line (s : List Char)
  | eofRes
  | errRes
deriving DecidableEq

/-- Push the parsed value of each token in order onto ret; stop and fail
at the first token that is not a valid unsigned integer, keeping what was
already pushed. -/
def pushTokens : List (List Char) → List Nat → List Nat × Bool
  | [], ret => (ret, true)
  | t :: ts, ret =>
    if isValidUint t then pushTokens ts (ret ++ [parseUint t]) else (ret, false)

/-- Model of Cli::readUintRecord acting on the result of one fgets call:
fail on a non-EOF read error; succeed leaving ret untouched at end of
stream; otherwise chomp the line, split it, fail if a nonempty line has
no tokens, then validate and push every token. -/
def readUintRecord (r : FgetsRes) (ret : List Nat) : List Nat × Bool :=
  match r with
  | .errRes => (ret, false)
  | .eofRes => (ret, true)
  | .line s =>
    let l := chomp s
    let strings := splitString l
    if !l.isEmpty && strings.isEmpty then (ret, false)
    else pushTokens strings ret

/-- Model of Cli::readNodeIDRecord: readUintRecord followed by the check
that no value in the whole vector is zero (the values stay in the vector
even when the check fails). -/
def readNodeIDRecord (r : FgetsRes) (ret : List Nat) : List Nat × Bool :=
  let p := readUintRecord r ret
  if p.2 = false then p
  else (p.1, p.1.all (fun v => v != 0))

/-- Steady behaviour of the stream once the finite events are exhausted:
every further fgets reports end of stream, or every further fgets fails
with a non-EOF error. -/
inductive Tail where
  | eof
  | err
deriving DecidableEq

/-- One transient read event: a line successfully read, or one failed
read that is not end of stream. -/
inductive ReadEv where
  | line (s : List Char)
  | err
deriving DecidableEq

/-- The fgets result delivered by one event. -/
def evRes : ReadEv → FgetsRes
  | .line s => .line s
  | .err => .errRes

/-- The fgets result delivered by the steady tail. -/
def tailRes : Tail → FgetsRes
  | .eof => .eofRes
  | .err => .errRes

/-- One fgets call against the event list and tail. -/
def nextRead : List ReadEv → Tail → FgetsRes × List ReadEv
  | [], t => (tailRes t, [])
  | ev :: rest, _ => (evRes ev, rest)

/-- Loop state of CliCommand::readNodeset: dataset built so far, the ok
flag, the number of cliError emissions, and the 1-based line counter. -/
structure NSState where
  dataset : List (List Nat)
  ok : Bool
  errCount : Nat
  lineno : Nat
deriving DecidableEq

/-- State at loop entry: empty dataset, ok, no error reported, line 1. -/
def initNSState : NSState :=
  { dataset := [], ok := true, errCount := 0, lineno := 1 }

/-- Error branch of the loop body: cliError is emitted only while ok is
still set, then ok is cleared; the line counter advances. -/
def errStep (st : NSState) : NSState :=
  { st with ok := false,
            errCount := if st.ok then st.errCount + 1 else st.errCount,
            lineno := st.lineno + 1 }

/-- One iteration of the readNodeset loop on the result of one read,
starting from a cleared record vector: Sum.inr st means the loop returns
with state st (empty record read), Sum.inl st means it continues. -/
def nsStep (w : Nat) (r : FgetsRes) (st : NSState) : NSState ⊕ NSState :=
  if (readNodeIDRecord r []).2 = false then Sum.inl (errStep st)
  else if (readNodeIDRecord r []).1.isEmpty then Sum.inr st
  else if (readNodeIDRecord r []).1.length ≠ w then Sum.inl (errStep st)
  else Sum.inl { st with
    dataset := if st.ok then st.dataset ++ [(readNodeIDRecord r []).1] else st.dataset,
    lineno := st.lineno + 1 }

/-- A read result on which the loop returns: the record read from a
cleared vector succeeds and is empty (a blank line, or end of stream). -/
def isTerm (r : FgetsRes) : Bool :=
  (readNodeIDRecord r []).2 && (readNodeIDRecord r []).1.isEmpty

/-- A read result the loop treats as a malformed line at width w: the
record read fails outright, or succeeds nonempty with the wrong width. -/
def recFails (w : Nat) (r : FgetsRes) : Bool :=
  !(readNodeIDRecord r []).2 ||
    (!(readNodeIDRecord r []).1.isEmpty && (readNodeIDRecord r []).1.length != w)

/-- The loop run over the finite events: Sum.inr means it returned at a
terminator with the remaining events; Sum.inl means it consumed every
event and keeps reading from the tail. -/
def readNodesetGo (w : Nat) : List ReadEv → NSState → NSState ⊕ (NSState × List ReadEv)
  | [], st => Sum.inl st
  | ev :: rest, st =>
    match nsStep w (evRes ev) st with
    | Sum.inr st2 => Sum.inr (st2, rest)
    | Sum.inl st2 => readNodesetGo w rest st2

/-- Model of CliCommand::readNodeset on a stream: none models divergence
of the loop, which happens exactly when the events run out over a
persistent non-EOF failure (see readNodesetFuel for the step-counted
semantics that justifies this). -/
def readNodesetR (w : Nat) (events : List ReadEv) (tail : Tail) :
    Option (NSState × List ReadEv) :=
  match readNodesetGo w events initNSState with
  | Sum.inr (st, rest) => some (st, rest)
  | Sum.inl st =>
    match tail with
    | Tail.eof =>
      match nsStep w FgetsRes.eofRes st with
      | Sum.inr st2 => some (st2, [])
      | Sum.inl _ => none
    | Tail.err => none

/-- Step-counted semantics of the readNodeset loop, one fgets per unit of
fuel: some means the loop returned within the allotted reads, none that
the fuel ran out first. -/
def readNodesetFuel (w : Nat) :
    Nat → List ReadEv → Tail → NSState → Option (NSState × List ReadEv)
  | 0, _, _, _ => none
  | fuel + 1, events, tail, st =>
    let p := nextRead events tail
    match nsStep w p.1 st with
    | Sum.inr st2 => some (st2, p.2)
    | Sum.inl st2 => readNodesetFuel w fuel p.2 tail st2

/-- The readNodeset loop diverges on the given stream: no number of
reads makes it return. -/
def readNodesetDiverges (w : Nat) (events : List ReadEv) (tail : Tail) : Prop :=
  ∀ fuel : Nat, readNodesetFuel w fuel events tail initNSState = none

/-- Return type tags of CliCommand. -/
inductive ReturnType where
  | RT_NONE
  | RT_ARC_LIST
  | RT_NODE_LIST
  | RT_OTHER
deriving DecidableEq

/-- The observable surface of a CliCommand used by lookup and the
syntax-error protocol. -/
structure CliCommandModel where
  name : String
  synopsis : String
  returnType : ReturnType
deriving DecidableEq

/-- The FAILED status marker. -/
def FAIL_STR : String := "FAILED!"

/-- Model of CliCommand::syntaxError: the first component is the recorded
lastStatusMessage, the second the lines written immediately to standard
output. -/
def syntaxError (cmd : CliCommandModel) : String × List String :=
  let msg := FAIL_STR ++ " Syntax: " ++ cmd.synopsis ++ "\n"
  (msg, if cmd.returnType = ReturnType.RT_OTHER then [msg] else [])

/-- Model of Cli::findCommand: linear scan in registration order, first
exact string match on the name wins. -/
def findCommand : List CliCommandModel → String → Option CliCommandModel
  | [], _ => none
  | c :: rest, nm => if c.name = nm then some c else findCommand rest nm

/-- Modelled from the spec: the base-10 reading of a token implied by the
validator's acceptance rule (every character a decimal digit of one plain
decimal numeral). Used only to compare the spec's description of the
parse with the parse the code performs. -/
def specParseBase10 (s : List Char) : Nat :=
  s.foldl (fun a c => a * 10 + digitVal c) 0

/-! Helper lemmas. -/

theorem pushTokens_eq (ts : List (List Char)) : ∀ ret,
    pushTokens ts ret =
      (ret ++ (ts.takeWhile isValidUint).map parseUint, ts.all isValidUint) := by
  induction ts with
  | nil => intro ret; simp [pushTokens]
  | cons t ts ih =>
    intro ret
    by_cases h : isValidUint t
    · simp [pushTokens, h, ih, List.takeWhile_cons]
    · simp [pushTokens, h, List.takeWhile_cons]

theorem parseUint_lt (s : List Char) : parseUint s < 2 ^ 32 :=
  Nat.mod_lt _ (by norm_num)

theorem readUintRecord_mem_lt (r : FgetsRes) (ret : List Nat)
    (hret : ∀ u ∈ ret, u < 2 ^ 32) :
    ∀ v ∈ (readUintRecord r ret).1, v < 2 ^ 32 := by
  intro v hv
  cases r with
  | errRes => exact hret v hv
  | eofRes => exact hret v hv
  | line s =>
    simp only [readUintRecord] at hv
    by_cases hg : (!(chomp s).isEmpty && (splitString (chomp s)).isEmpty) = true
    · rw [if_pos hg] at hv
      exact hret v hv
    · rw [if_neg hg, pushTokens_eq] at hv
      simp only [List.mem_append, List.mem_map] at hv
      rcases hv with h | ⟨t, _, hpt⟩
      · exact hret v h
      · exact hpt ▸ parseUint_lt t

theorem readNodeIDRecord_ok (r : FgetsRes) (rcd : List Nat)
    (h : readNodeIDRecord r [] = (rcd, true)) :
    ∀ v ∈ rcd, v ≠ 0 ∧ v < 2 ^ 32 := by
  intro v hv
  unfold readNodeIDRecord at h
  by_cases h2 : (readUintRecord r []).2 = false
  · rw [if_pos h2] at h
    have : (readUintRecord r []).2 = true := by rw [h]
    simp [h2] at this
  · rw [if_neg h2] at h
    have h1 : (readUintRecord r []).1 = rcd := congrArg Prod.fst h
    have hall : rcd.all (fun u => u != 0) = true := by
      have := congrArg Prod.snd h
      simpa [h1] using this
    refine ⟨?_, ?_⟩
    · have := List.all_eq_true.mp hall v hv
      simpa using this
    · exact readUintRecord_mem_lt r [] (by simp) v (h1 ▸ hv)

theorem nsStep_eofRes (w : Nat) (st : NSState) :
    nsStep w FgetsRes.eofRes st = Sum.inr st := by
  have hr : readNodeIDRecord FgetsRes.eofRes [] = ([], true) := rfl
  simp [nsStep, hr]

theorem nsStep_blank (w : Nat) (st : NSState) :
    nsStep w (FgetsRes.line ['\n']) st = Sum.inr st := by
  have hr : readNodeIDRecord (FgetsRes.line ['\n']) [] = ([], true) := rfl
  simp [nsStep, hr]

theorem nsStep_shape (w : Nat) (r : FgetsRes) (st : NSState) :
    nsStep w r st = Sum.inr st ∨ nsStep w r st = Sum.inl (errStep st) ∨
    ((readNodeIDRecord r []).2 = true ∧
     nsStep w r st = Sum.inl { st with
       dataset := if st.ok then st.dataset ++ [(readNodeIDRecord r []).1] else st.dataset,
       lineno := st.lineno + 1 }) := by
  by_cases h1 : (readNodeIDRecord r []).2 = false
  · right; left; simp [nsStep, h1]
  · by_cases h2 : (readNodeIDRecord r []).1.isEmpty = true
    · left; simp [nsStep, h1, h2]
    · by_cases h3 : (readNodeIDRecord r []).1.length = w
      · right; right
        refine ⟨by simpa using h1, ?_⟩
        simp [nsStep, h1, h2, h3]
      · right; left; simp [nsStep, h1, h2, h3]

theorem nsStep_inr (w : Nat) (r : FgetsRes) (st st2 : NSState)
    (h : nsStep w r st = Sum.inr st2) : st2 = st ∧ isTerm r = true := by
  by_cases h1 : (readNodeIDRecord r []).2 = false
  · simp [nsStep, h1] at h
  · by_cases h2 : (readNodeIDRecord r []).1.isEmpty = true
    · simp [nsStep, h1, h2] at h
      exact ⟨h.symm, by simp [isTerm, h2, by simpa using h1]⟩
    · by_cases h3 : (readNodeIDRecord r []).1.length = w
      · simp [nsStep, h1, h2, h3] at h
      · simp [nsStep, h1, h2, h3] at h

theorem nsStep_total (w : Nat) (r : FgetsRes) (st : NSState) :
    (∃ st2, nsStep w r st = Sum.inl st2) ∨ nsStep w r st = Sum.inr st := by
  rcases nsStep_shape w r st with h | h | ⟨_, h⟩
  · right; exact h
  · left; exact ⟨_, h⟩
  · left; exact ⟨_, h⟩

theorem nsStep_result (w : Nat) (r : FgetsRes) (st st2 : NSState)
    (h : nsStep w r st = Sum.inl st2 ∨ nsStep w r st = Sum.inr st2) :
    st2 = st ∨ st2 = errStep st ∨
    ∃ rcd, readNodeIDRecord r [] = (rcd, true) ∧
      st2 = { st with dataset := if st.ok then st.dataset ++ [rcd] else st.dataset,
                      lineno := st.lineno + 1 } := by
  rcases nsStep_shape w r st with hs | hs | ⟨hok, hs⟩
  · rcases h with h | h
    · rw [hs] at h; simp at h
    · rw [hs] at h; exact Or.inl (Sum.inr.inj h).symm
  · rcases h with h | h
    · rw [hs] at h; exact Or.inr (Or.inl (Sum.inl.inj h).symm)
    · rw [hs] at h; simp at h
  · rcases h with h | h
    · rw [hs] at h
      refine Or.inr (Or.inr ⟨(readNodeIDRecord r []).1, ?_, (Sum.inl.inj h).symm⟩)
      rw [← hok]
    · rw [hs] at h; simp at h

theorem readNodesetGo_preserve (P : NSState → Prop) (w : Nat)
    (hstep : ∀ r st st2,
      (nsStep w r st = Sum.inl st2 ∨ nsStep w r st = Sum.inr st2) → P st → P st2) :
    ∀ (events : List ReadEv) (st : NSState), P st →
      (∀ st2, readNodesetGo w events st = Sum.inl st2 → P st2) ∧
      (∀ st2 rest, readNodesetGo w events st = Sum.inr (st2, rest) → P st2) := by
  intro events
  induction events with
  | nil =>
    intro st hP
    refine ⟨?_, ?_⟩
    · intro st2 h
      simp only [readNodesetGo, Sum.inl.injEq] at h
      exact h ▸ hP
    · intro st2 rest h
      simp [readNodesetGo] at h
  | cons ev evs ih =>
    intro st hP
    cases hs : nsStep w (evRes ev) st with
    | inl stm =>
      have hPm : P stm := hstep _ _ _ (Or.inl hs) hP
      refine ⟨?_, ?_⟩
      · intro st2 h
        simp only [readNodesetGo, hs] at h
        exact (ih stm hPm).1 st2 h
      · intro st2 rest h
        simp only [readNodesetGo, hs] at h
        exact (ih stm hPm).2 st2 rest h
    | inr stm =>
      have hPm : P stm := hstep _ _ _ (Or.inr hs) hP
      refine ⟨?_, ?_⟩
      · intro st2 h
        simp [readNodesetGo, hs] at h
      · intro st2 rest h
        simp only [readNodesetGo, hs, Sum.inr.injEq, Prod.mk.injEq] at h
        exact h.1 ▸ hPm

theorem readNodesetGo_frame (w : Nat) :
    ∀ (events : List ReadEv) (st st2 : NSState) (rest : List ReadEv),
      readNodesetGo w events st = Sum.inr (st2, rest) →
      ∃ pre t, events = pre ++ t :: rest ∧ isTerm (evRes t) = true := by
  intro events
  induction events with
  | nil =>
    intro st st2 rest h
    simp [readNodesetGo] at h
  | cons ev evs ih =>
    intro st st2 rest h
    cases hs : nsStep w (evRes ev) st with
    | inr stm =>
      simp only [readNodesetGo, hs, Sum.inr.injEq, Prod.mk.injEq] at h
      exact ⟨[], ev, by simp [h.2], (nsStep_inr w _ st stm hs).2⟩
    | inl stm =>
      simp only [readNodesetGo, hs] at h
      obtain ⟨pre, t, hpre, ht⟩ := ih stm st2 rest h
      exact ⟨ev :: pre, t, by simp [hpre], ht⟩

theorem readNodesetR_of_inl (w : Nat) (events : List ReadEv) (st1 : NSState)
    (hg : readNodesetGo w events initNSState = Sum.inl st1) :
    readNodesetR w events Tail.eof = some (st1, []) := by
  unfold readNodesetR
  simp only [hg, nsStep_eofRes]

theorem readNodesetR_of_inl_err (w : Nat) (events : List ReadEv) (st1 : NSState)
    (hg : readNodesetGo w events initNSState = Sum.inl st1) :
    readNodesetR w events Tail.err = none := by
  unfold readNodesetR
  simp only [hg]

theorem readNodesetR_of_inr (w : Nat) (events : List ReadEv) (tail : Tail)
    (st1 : NSState) (rest1 : List ReadEv)
    (hg : readNodesetGo w events initNSState = Sum.inr (st1, rest1)) :
    readNodesetR w events tail = some (st1, rest1) := by
  unfold readNodesetR
  simp only [hg]

theorem readNodesetR_preserve (P : NSState → Prop) (w : Nat) (events : List ReadEv)
    (tail : Tail) (st : NSState) (rest : List ReadEv)
    (hstep : ∀ r st1 st2,
      (nsStep w r st1 = Sum.inl st2 ∨ nsStep w r st1 = Sum.inr st2) → P st1 → P st2)
    (hinit : P initNSState)
    (h : readNodesetR w events tail = some (st, rest)) : P st := by
  have hgo := readNodesetGo_preserve P w hstep events initNSState hinit
  cases hg : readNodesetGo w events initNSState with
  | inr p =>
    obtain ⟨st1, rest1⟩ := p
    rw [readNodesetR_of_inr w events tail st1 rest1 hg] at h
    simp only [Option.some.injEq, Prod.mk.injEq] at h
    exact h.1 ▸ hgo.2 st1 rest1 hg
  | inl st1 =>
    cases tail with
    | err => rw [readNodesetR_of_inl_err w events st1 hg] at h; cases h
    | eof =>
      rw [readNodesetR_of_inl w events st1 hg] at h
      simp only [Option.some.injEq, Prod.mk.injEq] at h
      exact h.1 ▸ hgo.1 st1 hg

theorem readNodesetR_rest (w : Nat) (events : List ReadEv) (tail : Tail)
    (st : NSState) (rest : List ReadEv)
    (h : readNodesetR w events tail = some (st, rest)) :
    rest = [] ∨ ∃ pre t, events = pre ++ t :: rest ∧ isTerm (evRes t) = true := by
  cases hg : readNodesetGo w events initNSState with
  | inr p =>
    obtain ⟨st1, rest1⟩ := p
    rw [readNodesetR_of_inr w events tail st1 rest1 hg] at h
    simp only [Option.some.injEq, Prod.mk.injEq] at h
    exact Or.inr (h.2 ▸ readNodesetGo_frame w events initNSState st1 rest1 hg)
  | inl st1 =>
    cases tail with
    | err => rw [readNodesetR_of_inl_err w events st1 hg] at h; cases h
    | eof =>
      rw [readNodesetR_of_inl w events st1 hg] at h
      simp only [Option.some.injEq, Prod.mk.injEq] at h
      exact Or.inl h.2.symm

theorem nsStep_errInv (w : Nat) (r : FgetsRes) (st st2 : NSState)
    (h : nsStep w r st = Sum.inl st2 ∨ nsStep w r st = Sum.inr st2)
    (hP : st.errCount = if st.ok then 0 else 1) :
    st2.errCount = if st2.ok then 0 else 1 := by
  rcases nsStep_result w r st st2 h with h2 | h2 | ⟨rcd, _, h2⟩
  · rw [h2]; exact hP
  · subst h2
    by_cases hok : st.ok = true
    · simp [hok] at hP
      simp [errStep, hok, hP]
    · simp only [Bool.not_eq_true] at hok
      simp [hok] at hP
      simp [errStep, hok, hP]
  · subst h2
    exact hP

theorem nsStep_okFalse (w : Nat) (r : FgetsRes) (st st2 : NSState)
    (h : nsStep w r st = Sum.inl st2 ∨ nsStep w r st = Sum.inr st2)
    (hP : st.ok = false) : st2.ok = false := by
  rcases nsStep_result w r st st2 h with h2 | h2 | ⟨rcd, _, h2⟩
  · rw [h2]; exact hP
  · subst h2; simp [errStep]
  · subst h2; exact hP

theorem nsStep_range (w : Nat) (r : FgetsRes) (st st2 : NSState)
    (h : nsStep w r st = Sum.inl st2 ∨ nsStep w r st = Sum.inr st2)
    (hP : ∀ rcd ∈ st.dataset, ∀ v ∈ rcd, v ≠ 0 ∧ v < 2 ^ 32) :
    ∀ rcd ∈ st2.dataset, ∀ v ∈ rcd, v ≠ 0 ∧ v < 2 ^ 32 := by
  rcases nsStep_result w r st st2 h with h2 | h2 | ⟨rcd0, hrr, h2⟩
  · rw [h2]; exact hP
  · subst h2; simpa [errStep] using hP
  · subst h2
    intro rcd hrcd v hv
    by_cases hstok : st.ok = true
    · simp only [hstok, if_pos rfl] at hrcd
      rcases List.mem_append.mp hrcd with hm | hm
      · exact hP rcd hm v hv
      · have hrcd0 : rcd = rcd0 := List.mem_singleton.mp hm
        exact readNodeIDRecord_ok r rcd0 hrr v (hrcd0 ▸ hv)
    · simp only [Bool.not_eq_true] at hstok
      simp [hstok] at hrcd
      exact hP rcd hrcd v hv

theorem readNodesetFuel_errTail (w : Nat) : ∀ (fuel : Nat) (st : NSState),
    readNodesetFuel w fuel [] Tail.err st = none := by
  intro fuel
  induction fuel with
  | zero => intro st; rfl
  | succ n ih =>
    intro st
    have hr : readNodeIDRecord FgetsRes.errRes [] = ([], false) := rfl
    have hs : nsStep w FgetsRes.errRes st = Sum.inl (errStep st) := by
      simp [nsStep, hr]
    simp [readNodesetFuel, nextRead, tailRes, hs, ih]

theorem readNodesetFuel_eofTotal (w : Nat) : ∀ (events : List ReadEv) (st : NSState),
    (readNodesetFuel w (events.length + 1) events Tail.eof st).isSome = true := by
  intro events
  induction events with
  | nil =>
    intro st
    simp [readNodesetFuel, nextRead, tailRes, nsStep_eofRes]
  | cons ev evs ih =>
    intro st
    cases hs : nsStep w (evRes ev) st with
    | inr st2 => simp [readNodesetFuel, nextRead, hs]
    | inl st2 =>
      simp only [List.length_cons, readNodesetFuel, nextRead, hs]
      exact ih st2

theorem splitStringAux_all_delim (delim : List Char) :
    ∀ s : List Char, (∀ c ∈ s, c ∈ delim) → splitStringAux delim s [] = [] := by
  intro s
  induction s with
  | nil => intro _; rfl
  | cons c rest ih =>
    intro h
    have hc : c ∈ delim := h c (List.mem_cons_self c rest)
    simp only [splitStringAux, if_pos hc, List.isEmpty_nil, if_pos rfl]
    exact ih (fun d hd => h d (List.mem_cons_of_mem c hd))

/-! Claim theorems. -/

/-- Claim C4: on the input lines "1 2", "3 4", "" with expected width 2
the dataset reader returns the dataset [[1,2],[3,4]] with ok true, the
blank line terminating the block; and in general every successfully read
record of the declared width is appended at the end of the dataset while
the read is still ok. -/
theorem C4_dataset_example :
    (∀ (w : Nat) (r : FgetsRes) (st : NSState) (rcd : List Nat),
       readNodeIDRecord r [] = (rcd, true) → rcd ≠ [] → rcd.length = w → st.ok = true →
       nsStep w r st = Sum.inl { st with dataset := st.dataset ++ [rcd],
                                         lineno := st.lineno + 1 }) ∧
    readNodesetR 2 [ReadEv.line ("1 2\n".toList), ReadEv.line ("3 4\n".toList),
                    ReadEv.line ("\n".toList)] Tail.eof =
      some ({ dataset := [[1, 2], [3, 4]], ok := true, errCount := 0, lineno := 3 }, []) := by
  constructor
  · intro w r st rcd hr hne hlen hok
    have h1 : (readNodeIDRecord r []).2 = true := by rw [hr]
    have h2 : (readNodeIDRecord r []).1 = rcd := by rw [hr]
    have hemp : rcd.isEmpty = false := by
      cases rcd with
      | nil => exact absurd rfl hne
      | cons a l => rfl
    simp [nsStep, h1, h2, hemp, hlen, hok]
  · rfl

/-- Witness for the general part of C4 at a concrete input. -/
theorem C4_dataset_example_witness :
    nsStep 2 (FgetsRes.line ("9 9\n".toList)) initNSState =
      Sum.inl { initNSState with dataset := initNSState.dataset ++ [[9, 9]],
                                 lineno := initNSState.lineno + 1 } :=
  C4_dataset_example.1 2 (FgetsRes.line ("9 9\n".toList)) initNSState [9, 9]
    (by decide) (by decide) (by decide) rfl

/-- Claim C7: a line that is nonempty after stripping a single trailing
newline but is made up entirely of delimiter characters makes the record
read fail; it is not treated as a blank-line terminator. -/
theorem C7_delim_only_line_fails (s : List Char) (ret : List Nat)
    (h1 : chomp s ≠ []) (h2 : ∀ c ∈ chomp s, c ∈ defaultDelim) :
    readUintRecord (FgetsRes.line s) ret = (ret, false) := by
  have hs : splitString (chomp s) = [] :=
    splitStringAux_all_delim defaultDelim (chomp s) h2
  have hne : (chomp s).isEmpty = false := by
    cases hcs : chomp s with
    | nil => exact absurd hcs h1
    | cons a l => rfl
  simp [readUintRecord, hs, hne]

/-- Witness for C7 at a concrete input: a line of one space, one comma
and the trailing newline. -/
theorem C7_delim_only_line_fails_witness :
    readUintRecord (FgetsRes.line (' ' :: ',' :: '\n' :: [])) [7] = ([7], false) :=
  C7_delim_only_line_fails (' ' :: ',' :: '\n' :: []) [7] (by decide) (by decide)

/-- Claim C8: syntaxError records a FAILED status message embedding the
synopsis, and emits it immediately to standard output exactly when the
return type is RT_OTHER (so RT_NODE_LIST and the others do not emit). -/
theorem C8_syntaxError_spec (cmd : CliCommandModel) :
    (syntaxError cmd).1 = FAIL_STR ++ " Syntax: " ++ cmd.synopsis ++ "\n" ∧
    ((syntaxError cmd).2 = [(syntaxError cmd).1] ↔ cmd.returnType = ReturnType.RT_OTHER) ∧
    ((syntaxError cmd).2 = [] ↔ cmd.returnType ≠ ReturnType.RT_OTHER) := by
  refine ⟨rfl, ?_, ?_⟩ <;>
    by_cases h : cmd.returnType = ReturnType.RT_OTHER <;>
      simp [syntaxError, h]

/-- Claim C9: readUintRecord is not atomic on failure: when some token of
the line is invalid, the output vector has received the parsed values of
all valid tokens before the first invalid one and is not rolled back. -/
theorem C9_readUintRecord_keeps_values (s : List Char) (ret : List Nat)
    (h : (splitString (chomp s)).all isValidUint = false) :
    readUintRecord (FgetsRes.line s) ret =
      (ret ++ ((splitString (chomp s)).takeWhile isValidUint).map parseUint, false) := by
  have hne : (splitString (chomp s)).isEmpty = false := by
    cases hss : splitString (chomp s) with
    | nil => rw [hss] at h; simp at h
    | cons a l => rfl
  simp [readUintRecord, hne, pushTokens_eq, h]

/-- Witness for C9 at a concrete input: the line "7 x" with a nonempty
starting vector; the 7 is kept, then the record fails on "x". -/
theorem C9_readUintRecord_keeps_values_witness :
    readUintRecord (FgetsRes.line ("7 x\n".toList)) [9] = ([9, 7], false) :=
  (C9_readUintRecord_keeps_values ("7 x\n".toList) [9] (by decide)).trans (by decide)

/-- Claim C10: findCommand returns the first command in registration
order whose name matches under exact string comparison, none when no
command matches, and with duplicate names the earlier registration wins. -/
theorem C10_findCommand_spec :
    (∀ (cmds : List CliCommandModel) (nm : String) (c : CliCommandModel),
       findCommand cmds nm = some c →
       ∃ l1 l2, cmds = l1 ++ c :: l2 ∧ c.name = nm ∧ ∀ c2 ∈ l1, c2.name ≠ nm) ∧
    (∀ (cmds : List CliCommandModel) (nm : String),
       findCommand cmds nm = none ↔ ∀ c ∈ cmds, c.name ≠ nm) ∧
    (∀ (l1 : List CliCommandModel) (c : CliCommandModel) (l2 : List CliCommandModel)
       (nm : String), c.name = nm → (∀ c2 ∈ l1, c2.name ≠ nm) →
       findCommand (l1 ++ c :: l2) nm = some c) := by
  refine ⟨?_, ?_, ?_⟩
  · intro cmds
    induction cmds with
    | nil => intro nm c h; cases h
    | cons d rest ih =>
      intro nm c h
      by_cases hd : d.name = nm
      · simp only [findCommand, if_pos hd, Option.some.injEq] at h
        exact ⟨[], rest, by simp [h], h ▸ hd, by simp⟩
      · simp only [findCommand, if_neg hd] at h
        obtain ⟨l1, l2, he, hn, hall⟩ := ih nm c h
        refine ⟨d :: l1, l2, by rw [List.cons_append, he], hn, ?_⟩
        intro c2 hc2
        rcases List.mem_cons.mp hc2 with h2 | h2
        · exact h2 ▸ hd
        · exact hall c2 h2
  · intro cmds nm
    induction cmds with
    | nil => simp [findCommand]
    | cons d rest ih =>
      by_cases hd : d.name = nm
      · simp [findCommand, hd]
      · simp [findCommand, hd, ih]
  · intro l1
    induction l1 with
    | nil =>
      intro c l2 nm hn _
      simp [findCommand, hn]
    | cons d rest ih =>
      intro c l2 nm hn hall
      have hd : d.name ≠ nm := hall d (List.mem_cons_self d rest)
      simp only [List.cons_append, findCommand, if_neg hd]
      exact ih c l2 nm hn (fun c2 h2 => hall c2 (List.mem_cons_of_mem d h2))

theorem takeDigitsVal_fold (base : Nat) (isD : Char → Bool) (val : Char → Nat) :
    ∀ (l : List Char) (acc : Nat), (∀ c ∈ l, isD c = true) →
      takeDigitsVal base isD val l acc = l.foldl (fun a c => a * base + val c) acc := by
  intro l
  induction l with
  | nil => intro acc _; rfl
  | cons c rest ih =>
    intro acc h
    have hc : isD c = true := h c (List.mem_cons_self c rest)
    simp only [takeDigitsVal, if_pos hc, List.foldl_cons]
    exact ih _ (fun d hd => h d (List.mem_cons_of_mem c hd))

theorem cIsSpace_of_digit (c : Char) (h : c.isDigit = true) : cIsSpace c = false := by
  by_contra hc
  simp only [Bool.not_eq_false, cIsSpace, Bool.or_eq_true, beq_iff_eq] at hc
  rcases hc with ((((rfl | rfl) | rfl) | rfl) | rfl) | rfl <;>
    exact absurd h (by decide)

theorem parseUint_decimal (s : List Char) (hv : isValidUint s = true)
    (hh : s.head? ≠ some '0') (hlt : specParseBase10 s < 2 ^ 32) :
    parseUint s = specParseBase10 s := by
  obtain ⟨c, cs, rfl⟩ : ∃ c cs, s = c :: cs := by
    cases s with
    | nil => simp [isValidUint] at hv
    | cons c cs => exact ⟨c, cs, rfl⟩
  simp only [isValidUint, Bool.and_eq_true, List.all_eq_true] at hv
  have hall : ∀ d ∈ c :: cs, d.isDigit = true := hv.2
  have hcd : c.isDigit = true := hall c (List.mem_cons_self c cs)
  have hc0 : c ≠ '0' := fun he => hh (by rw [he]; rfl)
  have hcm : c ≠ '-' := fun he => absurd (he ▸ hcd) (by decide)
  have hcp : c ≠ '+' := fun he => absurd (he ▸ hcd) (by decide)
  have hsp : cIsSpace c = false := cIsSpace_of_digit c hcd
  have hdrop : List.dropWhile cIsSpace (c :: cs) = c :: cs := by
    simp [List.dropWhile_cons, hsp]
  unfold parseUint strtoul0
  rw [hdrop]
  simp only [strtoulSigned, if_neg hcm, if_neg hcp]
  simp only [strtoulMag, if_neg hc0]
  rw [takeDigitsVal_fold 10 Char.isDigit digitVal (c :: cs) 0 hall]
  have hfold : (c :: cs).foldl (fun a d => a * 10 + digitVal d) 0 =
      specParseBase10 (c :: cs) := rfl
  rw [hfold]
  have hle : specParseBase10 (c :: cs) ≤ ULONG_MAX := by
    have h32 : (2 : Nat) ^ 32 ≤ ULONG_MAX := by norm_num [ULONG_MAX]
    exact le_trans hlt.le h32
  rw [min_eq_left hle]
  exact Nat.mod_eq_of_lt hlt

/-- Claim C3, counterexample: the token "08" refutes the claim as
stated. It is a valid unsigned integer whose nonzero base-10 value is 8,
yet isValidNodeID rejects it: the conversion the code uses is strtoul
with base argument 0, which takes the leading 0 as an octal marker,
stops in front of the 8 and yields 0 — so the conversion does not agree
with the validator's base-10 acceptance rule. -/
theorem C3_counterexample :
    ¬ ((isValidNodeID ("08".toList) = true) ↔
       (isValidUint ("08".toList) = true ∧ specParseBase10 ("08".toList) ≠ 0)) := by
  decide

/-- Claim C3, amended: isValidNodeID t holds iff isValidUint t holds and
parseUint t — strtoul with base argument 0, reduced mod 2 ^ 32 — is
nonzero; this conversion agrees with the base-10 reading on accepted
tokens that do not start with the digit 0 and whose value fits in 32
bits (tokens with a leading 0 are read as octal up to the first
non-octal digit); and "0" is a valid unsigned integer but an invalid
node ID. -/
theorem C3_amended :
    (∀ s : List Char, isValidNodeID s = true ↔
       (isValidUint s = true ∧ parseUint s ≠ 0)) ∧
    (∀ s : List Char, isValidUint s = true → s.head? ≠ some '0' →
       specParseBase10 s < 2 ^ 32 → parseUint s = specParseBase10 s) ∧
    isValidUint ("0".toList) = true ∧ isValidNodeID ("0".toList) = false := by
  refine ⟨?_, parseUint_decimal, by decide, by decide⟩
  intro s
  simp [isValidNodeID]

/-- Witness for C3 at a concrete input: on "123" the code's parse agrees
with the base-10 reading. -/
theorem C3_amended_witness :
    parseUint ("123".toList) = specParseBase10 ("123".toList) :=
  C3_amended.2.1 ("123".toList) (by decide) (by decide) (by decide)

/-- Witness for C10 at a concrete registry with a duplicate name: lookup
of "b" yields the earlier of the two commands named "b". -/
theorem C10_findCommand_witness :
    findCommand [⟨"a", "usage a", ReturnType.RT_NONE⟩,
                 ⟨"b", "usage b", ReturnType.RT_OTHER⟩,
                 ⟨"b", "other", ReturnType.RT_NONE⟩] "b" =
      some ⟨"b", "usage b", ReturnType.RT_OTHER⟩ :=
  C10_findCommand_spec.2.2 [⟨"a", "usage a", ReturnType.RT_NONE⟩]
    ⟨"b", "usage b", ReturnType.RT_OTHER⟩ [⟨"b", "other", ReturnType.RT_NONE⟩] "b"
    rfl (by decide)

/-- Claim C1, counterexample: on a stream whose reads persistently fail
with a non-EOF error, the dataset-reading loop never returns, however
many reads it is allowed: the loop handles a failed read like a
malformed line and continues, so it has no exit on stream failure and a
persistent non-EOF failure makes it run forever. -/
theorem C1_counterexample : readNodesetDiverges 2 [] Tail.err :=
  fun fuel => readNodesetFuel_errTail 2 fuel initNSState

/-- Claim C1, amended: a dataset read terminates on every stream whose
reads eventually reach end of stream — one read more than the number of
buffered events always suffices, because every iteration consumes one
read and the read at end of stream yields the empty record on which the
loop returns; a persistent non-EOF read failure, by contrast, keeps the
loop running forever. -/
theorem C1_amended (w : Nat) (events : List ReadEv) (st : NSState) :
    (readNodesetFuel w (events.length + 1) events Tail.eof st).isSome = true :=
  readNodesetFuel_eofTotal w events st

/-- Claim C2: with malformed lines in a block the dataset read returns
not-ok and exactly one ERROR status is recorded, while scanning still
consumes the whole block: (1) any returned state has recorded exactly
one error when not ok and none when ok; (2) a malformed read — record
failure or wrong width — always continues the loop with ok cleared and
never terminates the block; (3) the loop returns only at a terminator
read or at the end of the stream; (4) the spec's example, lines "1 2 3"
and "" at width 2, gives ok false, exactly one recorded error, and both
lines consumed. -/
theorem C2_single_error :
    (∀ (w : Nat) (events : List ReadEv) (tail : Tail) (st : NSState) (rest : List ReadEv),
       readNodesetR w events tail = some (st, rest) →
       st.errCount = if st.ok then 0 else 1) ∧
    (∀ (w : Nat) (r : FgetsRes) (st : NSState), recFails w r = true →
       nsStep w r st = Sum.inl (errStep st) ∧ (errStep st).ok = false) ∧
    (∀ (w : Nat) (events : List ReadEv) (tail : Tail) (st : NSState) (rest : List ReadEv),
       readNodesetR w events tail = some (st, rest) →
       rest = [] ∨ ∃ pre t, events = pre ++ t :: rest ∧ isTerm (evRes t) = true) ∧
    readNodesetR 2 [ReadEv.line ("1 2 3\n".toList), ReadEv.line ("\n".toList)] Tail.eof =
      some ({ dataset := [], ok := false, errCount := 1, lineno := 2 }, []) := by
  refine ⟨?_, ?_, ?_, rfl⟩
  · intro w events tail st rest h
    exact readNodesetR_preserve (fun st0 => st0.errCount = if st0.ok then 0 else 1)
      w events tail st rest (fun r st1 st2 hs hp => nsStep_errInv w r st1 st2 hs hp)
      rfl h
  · intro w r st hf
    refine ⟨?_, by simp [errStep]⟩
    simp only [recFails, Bool.or_eq_true, Bool.and_eq_true, Bool.not_eq_true',
      bne_iff_ne, ne_eq] at hf
    rcases hf with hf | ⟨hne, hwid⟩
    · simp [nsStep, hf]
    · by_cases h2 : (readNodeIDRecord r []).2 = false
      · simp [nsStep, h2]
      · simp [nsStep, h2, hne, hwid]
  · intro w events tail st rest h
    exact readNodesetR_rest w events tail st rest h

/-- Witness for C2 at the spec's example, through part (1): the returned
not-ok state has error count one. -/
theorem C2_single_error_witness :
    ({ dataset := [], ok := false, errCount := 1, lineno := 2 } : NSState).errCount =
      if ({ dataset := [], ok := false, errCount := 1, lineno := 2 } : NSState).ok
      then 0 else 1 :=
  C2_single_error.1 2 [ReadEv.line ("1 2 3\n".toList), ReadEv.line ("\n".toList)]
    Tail.eof { dataset := [], ok := false, errCount := 1, lineno := 2 } [] (by decide)

theorem go_nonterm_blank (w : Nat) :
    ∀ (events : List ReadEv) (st : NSState),
      events.all (fun ev => !isTerm (evRes ev)) = true →
      ∃ st2, readNodesetGo w events st = Sum.inl st2 ∧
        readNodesetGo w (events ++ [ReadEv.line ['\n']]) st = Sum.inr (st2, []) := by
  intro events
  induction events with
  | nil =>
    intro st _
    refine ⟨st, rfl, ?_⟩
    have hb : nsStep w (evRes (ReadEv.line ['\n'])) st = Sum.inr st := nsStep_blank w st
    simp [readNodesetGo, hb]
  | cons ev evs ih =>
    intro st hall
    simp only [List.all_cons, Bool.and_eq_true] at hall
    have hnt : isTerm (evRes ev) = false := by
      have h1 := hall.1
      simpa using h1
    obtain ⟨st2, hst2⟩ : ∃ st2, nsStep w (evRes ev) st = Sum.inl st2 := by
      rcases nsStep_total w (evRes ev) st with ⟨st2, h⟩ | h
      · exact ⟨st2, h⟩
      · have ht := (nsStep_inr w (evRes ev) st st h).2
        rw [hnt] at ht
        cases ht
    obtain ⟨st3, h3, h4⟩ := ih st2 hall.2
    refine ⟨st3, ?_, ?_⟩
    · simp only [readNodesetGo, hst2]
      exact h3
    · simp only [List.cons_append, readNodesetGo, hst2]
      exact h4

/-- Claim C5: at end of stream with no data the record read succeeds
with an empty record, and a dataset read on a stream whose buffered
lines contain no blank-line terminator returns exactly what it would
return had a blank line been read at the end of them instead, whatever
the stream does after that line. -/
theorem C5_eof_like_blank :
    (∀ ret : List Nat, readUintRecord FgetsRes.eofRes ret = (ret, true)) ∧
    (∀ (w : Nat) (events : List ReadEv) (tail : Tail),
       events.all (fun ev => !isTerm (evRes ev)) = true →
       readNodesetR w events Tail.eof =
         readNodesetR w (events ++ [ReadEv.line ['\n']]) tail) := by
  refine ⟨fun ret => rfl, ?_⟩
  intro w events tail hall
  obtain ⟨st2, h1, h2⟩ := go_nonterm_blank w events initNSState hall
  rw [readNodesetR_of_inl w events st2 h1,
      readNodesetR_of_inr w (events ++ [ReadEv.line ['\n']]) tail st2 [] h2]

/-- Witness for C5 at a concrete input: the one-line stream "5" followed
by end of stream gives the same result as "5" followed by a blank line
(even over a stream that afterwards fails). -/
theorem C5_eof_like_blank_witness :
    readNodesetR 1 [ReadEv.line ("5\n".toList)] Tail.eof =
      readNodesetR 1 ([ReadEv.line ("5\n".toList)] ++ [ReadEv.line ['\n']]) Tail.err :=
  C5_eof_like_blank.2 1 [ReadEv.line ("5\n".toList)] Tail.err (by decide)

/-- Claim C6: every record of a dataset returned with ok true contains
only values in the range 1 to 2 ^ 32 - 1; zero never appears in a
successfully read dataset. -/
theorem C6_range (w : Nat) (events : List ReadEv) (tail : Tail)
    (st : NSState) (rest : List ReadEv)
    (h : readNodesetR w events tail = some (st, rest)) (hok : st.ok = true) :
    ∀ rcd ∈ st.dataset, ∀ v ∈ rcd, 1 ≤ v ∧ v ≤ 2 ^ 32 - 1 := by
  have hP := readNodesetR_preserve
    (fun st0 => ∀ rcd ∈ st0.dataset, ∀ v ∈ rcd, v ≠ 0 ∧ v < 2 ^ 32)
    w events tail st rest (fun r st1 st2 hs hp => nsStep_range w r st1 st2 hs hp)
    (by intro rcd h0; simp [initNSState] at h0) h
  intro rcd hrcd v hv
  obtain ⟨h0, hlt⟩ := hP rcd hrcd v hv
  exact ⟨Nat.one_le_iff_ne_zero.mpr h0, by omega⟩

/-- Witness for C6 at the concrete dataset of the C4 example. -/
theorem C6_range_witness : 1 ≤ 2 ∧ 2 ≤ 2 ^ 32 - 1 :=
  C6_range 2 [ReadEv.line ("1 2\n".toList), ReadEv.line ("3 4\n".toList),
              ReadEv.line ("\n".toList)] Tail.eof
    { dataset := [[1, 2], [3, 4]], ok := true, errCount := 0, lineno := 3 } []
    (by decide) rfl [1, 2] (by decide) 2 (by decide)

end Clibase
